import Mathlib

/-!
Shallow embedding of `safe-rm` (src/src/main.rs).

The program is a wrapper around `/bin/rm`: it loads a protected-path set from
configuration files (expanding glob patterns, capped at 256 matches per line),
normalizes each command-line argument (treating symlinks by their own location,
not their target), drops arguments whose normalized form is contained in the
protected set, and forwards the rest to the real `rm`, relaying its exit code.

Filesystem-dependent primitives (`symlink_metadata`, `Path::canonicalize`,
`glob::glob`, `Command::status`, file reading, `$HOME`) are external
collaborators of the core and are modelled as explicit function parameters.
The pure path-string manipulation of Rust's `std::path` (component parsing,
`parent`, `file_name`, `join`, componentwise `Ord`/`Eq` of `PathBuf`) is
embedded concretely below for Unix platforms.
-/

namespace SafeRm

/-- A path component, mirroring `std::path::Component` on Unix
(the `Prefix` variant is Windows-only and cannot occur).  The constructor
order mirrors the Rust `derive(Ord)` order used by `PathBuf` comparisons:
`RootDir < CurDir < ParentDir < Normal`. -/
inductive Comp where
  | rootDir
  | curDir
  | parentDir
  | normal (s : String)
deriving DecidableEq, Repr

/-- Split a character list on `'/'` separators (pieces between separators;
empty pieces arise from repeated or trailing separators). -/
def splitSlash : List Char → List (List Char)
  | [] => [[]]
  | c :: rest =>
    if c = '/' then [] :: splitSlash rest
    else
      match splitSlash rest with
      | [] => [[c]]
      | piece :: pieces => (c :: piece) :: pieces

/-- Classify one non-empty piece of a path, as Rust's component parser does. -/
def pieceToComp (p : List Char) : Comp :=
  if p = ['.'] then Comp.curDir
  else if p = ['.', '.'] then Comp.parentDir
  else Comp.normal (String.mk p)

/-- `Path::is_absolute` on Unix: the path has a root, i.e. begins with `'/'`. -/
def isAbs (s : String) : Bool :=
  match s.data with
  | c :: _ => c = '/'
  | [] => false

/-- The pieces of a path with empty pieces (from `"//"` etc.) removed,
classified into components, before `"."`-normalization. -/
def rawComps (s : String) : List Comp :=
  ((splitSlash s.data).filter (fun p => p ≠ [])).map pieceToComp

/-- `Path::components()` on Unix: a leading root component for absolute paths,
empty pieces collapsed, and `"."` components removed except when they are the
leading component of a relative path. -/
def parsePath (s : String) : List Comp :=
  if isAbs s then
    Comp.rootDir :: (rawComps s).filter (fun c => c ≠ Comp.curDir)
  else
    match rawComps s with
    | Comp.curDir :: rest => Comp.curDir :: rest.filter (fun c => c ≠ Comp.curDir)
    | comps => comps.filter (fun c => c ≠ Comp.curDir)

/-- The characters of one component when rendered back into a path string. -/
def compChars : Comp → List Char
  | Comp.rootDir => []
  | Comp.curDir => ['.']
  | Comp.parentDir => ['.', '.']
  | Comp.normal s => s.data

/-- Render a component list (without a root) with `'/'` separators. -/
def renderRel : List Comp → List Char
  | [] => []
  | [c] => compChars c
  | c :: rest => compChars c ++ '/' :: renderRel rest

/-- Render a component list back into a path string. -/
def renderPath (comps : List Comp) : String :=
  match comps with
  | Comp.rootDir :: rest => String.mk ('/' :: renderRel rest)
  | other => String.mk (renderRel other)

/-- `Path::parent`: the path without its final component; `none` when the path
terminates in a root (`"/"`) or is empty.  (Rust returns a slice of the
original string; we return the re-rendered component list, which denotes the
same sequence of components.) -/
def parent (s : String) : Option String :=
  match parsePath s with
  | [] => none
  | [Comp.rootDir] => none
  | comps => some (renderPath comps.dropLast)

/-- `Path::file_name`: the final component when it is a normal component,
`none` when the path ends in `".."`, `"."`, a root, or is empty. -/
def fileName (s : String) : Option String :=
  match (parsePath s).getLast? with
  | some (Comp.normal n) => some n
  | _ => none

/-- `PathBuf::push` / `Path::join` on Unix: an absolute argument replaces the
base; otherwise a separator is inserted when needed. -/
def joinPath (base p : String) : String :=
  if isAbs p then p
  else if base = "" then p
  else if base.data.getLast? = some '/' then base ++ p
  else base ++ "/" ++ p

/-- The filesystem environment consumed by the path normalizer.
`isSymlink p` is `path.symlink_metadata()` succeeding with a symlink file
type; `canonicalize p` is `Path::canonicalize` (`none` on any error);
`target p` is the content of the link stored at `p` — the pipeline never
reads it (the code contains no `read_link` call), and the field exists so
that this independence can be stated. -/
structure FS where
  isSymlink : String → Bool
  canonicalize : String → Option String
  target : String → String

/-- Relative paths are prefixed by `"./"` so that they have a parent
directory (`main.rs` lines 192-196). -/
def explicitPath (p : String) : String :=
  if isAbs p then p else joinPath "." p

/-- `symlink_canonicalize` (`main.rs` lines 191-221): canonical absolute
location of the path itself, obtained by canonicalizing only the parent
directory and rejoining the final component unchanged. -/
def symlink_canonicalize (fs : FS) (path : String) : Option String :=
  let explicit := explicitPath path
  let parentDirOpt : Option String :=
    match parent explicit with
    | some dir =>
      match fs.canonicalize dir with
      | some normalizedParent => some normalizedParent
      | none => none
    | none => some "/"
  match parentDirOpt with
  | some dir =>
    match fileName path with
    | some name => some (joinPath dir name)
    | none =>
      -- file_name == ".."
      match parent dir with
      | some parentDir => some parentDir
      | none => some "/" -- Stop at the root.
  | none => none

/-- `normalize_path` (`main.rs` lines 274-292): symlinks are canonicalized by
their own location; other paths are fully canonicalized; any failure falls
back to the original argument string. -/
def normalize_path (fs : FS) (arg : String) : String :=
  if fs.isSymlink arg then
    match symlink_canonicalize fs arg with
    | some normalizedPath => normalizedPath
    | none => arg
  else
    match fs.canonicalize arg with
    | some normalizedPathname => normalizedPathname
    | none => arg

/-! ### `PathBuf` equality and ordering

Rust compares `Path`s componentwise: `PathBuf::eq` and `PathBuf::cmp` act on
`components()`, with the `Component` variant order
`RootDir < CurDir < ParentDir < Normal` and normal components compared as
byte strings (for valid UTF-8, byte order coincides with code-point order). -/

/-- `PathBuf == PathBuf`: componentwise equality. -/
def pathEq (a b : String) : Bool := decide (parsePath a = parsePath b)

/-- Order key of one component: variant index paired lexicographically with
the component text (as its character list, whose lexicographic order is the
byte order Rust uses on `OsStr`). -/
def compKey : Comp → Lex (Nat × List Char)
  | Comp.rootDir => toLex (0, [])
  | Comp.curDir => toLex (1, [])
  | Comp.parentDir => toLex (2, [])
  | Comp.normal s => toLex (3, s.data)

/-- Order key of a path: its component keys, compared lexicographically —
exactly `PathBuf::cmp`. -/
def pathKey (s : String) : List (Lex (Nat × List Char)) :=
  (parsePath s).map compKey

/-- `PathBuf ≤ PathBuf` (componentwise, as used by `Vec::<PathBuf>::sort`). -/
def pathLe (a b : String) : Prop := pathKey a ≤ pathKey b

/-- `PathBuf < PathBuf` (componentwise). -/
def pathLt (a b : String) : Prop := pathKey a < pathKey b

instance : DecidableRel pathLe :=
  fun a b => inferInstanceAs (Decidable (pathKey a ≤ pathKey b))

instance : DecidableRel pathLt :=
  fun a b => inferInstanceAs (Decidable (pathKey a < pathKey b))

instance : IsTotal String pathLe := ⟨fun a b => le_total (pathKey a) (pathKey b)⟩

instance : IsTrans String pathLe := ⟨fun _ _ _ => le_trans⟩

instance : IsTrans String pathLt := ⟨fun _ _ _ => lt_trans⟩

/-- The scan of `Vec::dedup`: drop each element equal (`PathBuf`-equal) to
the last retained element `prev`; otherwise retain it and continue with it
as the new last retained element. -/
def dedupTail (prev : String) : List String → List String
  | [] => []
  | b :: rest => if pathEq b prev then dedupTail prev rest else b :: dedupTail b rest

/-- `Vec::dedup`: remove consecutive equal (`PathBuf`-equal) elements,
keeping the first of each run. -/
def dedupConsec : List String → List String
  | [] => []
  | a :: rest => a :: dedupTail a rest

/-- `protected_paths.sort(); protected_paths.dedup();` — a stable sort in the
componentwise `PathBuf` order followed by consecutive dedup (`main.rs` lines
437-438).  `Vec::sort` is stable, so the stable `insertionSort` produces the
same list. -/
def pathSortDedup (l : List String) : List String :=
  dedupConsec (List.insertionSort pathLe l)

/-! ### Glob expansion and config loading -/

/-- One item of the `glob::glob` iterator: a matched path, or an unreadable
entry (`GlobError`). -/
def GlobEntry := Except Unit String

/-- The `glob::glob` external collaborator: `none` models an invalid pattern
(`Pattern` parse error), `some entries` models the match iterator. -/
def GlobFn := String → Option (List GlobEntry)

/-- Diagnostics printed by the program (each `println!` call site). -/
inductive Diag where
  | unreadableLine
  | invalidGlob
  | truncation
  | unreadableEntry
  | openFailed
  | spawnFailed
deriving DecidableEq, Repr

/-- `MAX_GLOB_EXPANSION` (`main.rs` line 61). -/
def MAX_GLOB_EXPANSION : Nat := 256

/-- The enumeration loop of `parse_line` (`main.rs` lines 132-151): collect
matched paths, skipping unreadable entries with a diagnostic, and stop with a
truncation diagnostic when the running count of successful matches would
exceed `MAX_GLOB_EXPANSION`. -/
def expandEntries : List GlobEntry → Nat → List String × List Diag
  | [], _ => ([], [])
  | Except.error _ :: rest, count =>
    let r := expandEntries rest count
    (r.1, Diag.unreadableEntry :: r.2)
  | Except.ok p :: rest, count =>
    if MAX_GLOB_EXPANSION < count + 1 then ([], [Diag.truncation])
    else
      let r := expandEntries rest (count + 1)
      (p :: r.1, r.2)

/-- `parse_line` (`main.rs` lines 117-154): `none` with a diagnostic for an
unreadable line or an invalid glob pattern; otherwise the (possibly
truncated) list of matches. -/
def parse_line (globFn : GlobFn) : Except Unit String → Option (List String) × List Diag
  | Except.error _ => (none, [Diag.unreadableLine])
  | Except.ok line =>
    match globFn line with
    | none => (none, [Diag.invalidGlob])
    | some entries =>
      let r := expandEntries entries 0
      (some r.1, r.2)

/-- State of one config file as seen by `read_config`: absent
(`!filename.exists()`), present but failing to open, or readable with a list
of line-read results. -/
inductive FileState where
  | missing
  | unopenable
  | readable (lineResults : List (Except Unit String))

/-- The config-file environment: contents by file name, and the value of the
`HOME` environment variable (`none` when unset or non-unicode). -/
structure CfgEnv where
  files : String → FileState
  home : Option String

/-- `read_config` (`main.rs` lines 63-83): a missing file contributes an
empty list; a file that exists but cannot be opened yields `none` with a
diagnostic; otherwise every line is fed to `parse_line` and the successful
expansions are concatenated. -/
def read_config (globFn : GlobFn) (env : CfgEnv) (filename : String) :
    Option (List String) × List Diag :=
  match env.files filename with
  | FileState.missing => (some [], [])
  | FileState.unopenable => (none, [Diag.openFailed])
  | FileState.readable lineResults =>
    let step := fun (acc : List String × List Diag) (lr : Except Unit String) =>
      match parse_line globFn lr with
      | (some linePaths, ds) => (acc.1 ++ linePaths, acc.2 ++ ds)
      | (none, ds) => (acc.1, acc.2 ++ ds)
    let r := lineResults.foldl step ([], [])
    (some r.1, r.2)

/-- The accumulation phase of `read_config_files` (`main.rs` lines 416-430):
global config files in order, then — when `HOME` is set — the local config
files resolved against the home directory. -/
def collect_paths (globFn : GlobFn) (env : CfgEnv) (globals locals : List String) :
    List String × List Diag :=
  let step := fun (acc : List String × List Diag) (name : String) =>
    match read_config globFn env name with
    | (some paths, ds) => (acc.1 ++ paths, acc.2 ++ ds)
    | (none, ds) => (acc.1, acc.2 ++ ds)
  let afterGlobals := globals.foldl step ([], [])
  match env.home with
  | some homeDir => locals.foldl (fun acc f => step acc (joinPath homeDir f)) afterGlobals
  | none => afterGlobals

/-- `DEFAULT_PATHS` (`main.rs` lines 32-59). -/
def DEFAULT_PATHS : List String :=
  ["/bin", "/boot", "/dev", "/etc", "/home", "/initrd", "/lib", "/lib32",
   "/lib64", "/proc", "/root", "/sbin", "/sys", "/usr", "/usr/bin",
   "/usr/include", "/usr/lib", "/usr/local", "/usr/local/bin",
   "/usr/local/include", "/usr/local/sbin", "/usr/local/share", "/usr/sbin",
   "/usr/share", "/usr/src", "/var"]

/-- `read_config_files` (`main.rs` lines 415-441): merge all sources,
substitute `DEFAULT_PATHS` when nothing was contributed, then sort and
dedup. -/
def read_config_files (globFn : GlobFn) (env : CfgEnv) (globals locals : List String) :
    List String × List Diag :=
  let collected := collect_paths globFn env globals locals
  let base := if collected.1.isEmpty then DEFAULT_PATHS else collected.1
  (pathSortDedup base, collected.2)

/-! ### Argument filtering and process forwarding -/

/-- `Vec::<PathBuf>::contains` with `PathBuf` (componentwise) equality. -/
def containsPath (l : List String) (x : String) : Bool :=
  l.any (fun e => pathEq e x)

/-- `filter_arguments` (`main.rs` lines 306-319): keep each argument, in
order and verbatim, unless its normalized form is contained in the protected
set. -/
def filter_arguments (fs : FS) (args : List String) (protected_paths : List String) :
    List String :=
  match args with
  | [] => []
  | arg :: rest =>
    if containsPath protected_paths (normalize_path fs arg) then
      filter_arguments fs rest protected_paths
    else
      arg :: filter_arguments fs rest protected_paths

/-- Result of `Command::status`: spawn failure, or termination with an
optional exit code (`none` models death by signal, where
`ExitStatus::code()` is `None`). -/
inductive SpawnOutcome where
  | failed
  | exited (code : Option Int)

/-- The `Command::new(rm_binary).args(&filtered_args).status()` external
collaborator: the outcome of spawning a binary on an argument vector. -/
def Spawner := String → List String → SpawnOutcome

/-- `run` (`main.rs` lines 476-496): load the protected set, filter the
arguments, spawn the real `rm` once on the full filtered vector, and return
its exit code — `1` when the code is absent or the spawn fails (with a
diagnostic in the latter case). -/
def run (spawn : Spawner) (fs : FS) (globFn : GlobFn) (env : CfgEnv)
    (rm_binary : String) (args : List String) (globals locals : List String) :
    Int × List Diag :=
  let cfg := read_config_files globFn env globals locals
  let filtered_args := filter_arguments fs args cfg.1
  match spawn rm_binary filtered_args with
  | SpawnOutcome.exited code => (code.getD 1, cfg.2)
  | SpawnOutcome.failed => (1, cfg.2 ++ [Diag.spawnFailed])

/-! ### Spec-side helper notions -/

/-- The successfully matched paths of a glob iterator (its `Ok` items). -/
def okPaths : List GlobEntry → List String :=
  List.filterMap (fun e => match e with | Except.ok p => some p | Except.error _ => none)

/-- A well-formed final path component: non-empty, not `"."` or `".."`, and
free of separators — the shape `Path::file_name` can return. -/
def validNameB (n : String) : Bool :=
  n ≠ "" && n ≠ "." && n ≠ ".." && !n.data.contains '/'

/-- A component that may appear in a canonical absolute path. -/
def cleanCompB : Comp → Bool
  | Comp.normal n => validNameB n
  | _ => false

/-- A clean absolute path: the shape `Path::canonicalize` returns on success
(absolute, round-trips through component parsing, no trailing separator
except for `"/"` itself, and only normal components after the root). -/
def cleanAbsB (s : String) : Bool :=
  isAbs s && (renderPath (parsePath s) == s) &&
    (s == "/" || s.data.getLast? ≠ some '/') &&
    (match parsePath s with
     | Comp.rootDir :: rest => rest.all cleanCompB
     | _ => false)

/-- Coherence facts about the filesystem environment that hold of a POSIX
filesystem and are needed to reason about repeated normalization:
`canonicalize` returns clean absolute fixed points that are not symlinks, a
path reported as a symlink by `lstat` ends in a normal component, and the
canonical own-location of a symlink still denotes that symlink. -/
structure Coherent (fs : FS) : Prop where
  canon_clean : ∀ x y, fs.canonicalize x = some y → cleanAbsB y = true
  canon_fix : ∀ x y, fs.canonicalize x = some y → fs.canonicalize y = some y
  canon_not_symlink : ∀ x y, fs.canonicalize x = some y → fs.isSymlink y = false
  symlink_name : ∀ p, fs.isSymlink p = true →
    ∃ n, fileName p = some n ∧ validNameB n = true
  symlink_self : ∀ p l, fs.isSymlink p = true → symlink_canonicalize fs p = some l →
    fs.isSymlink l = true

/-! ### Concrete environments used by the witnesses -/

/-- A glob iterator with 257 successful matches. -/
def entriesTrunc : List GlobEntry := List.replicate 257 (Except.ok "/x")

/-- Glob collaborator mapping the line `"g"` to 257 matches. -/
def globFnTrunc : GlobFn := fun line => if line = "g" then some entriesTrunc else none

/-- Glob collaborator expanding the literal line `"foo"` to itself. -/
def globFnFoo : GlobFn := fun line => if line = "foo" then some [Except.ok "foo"] else none

/-- One config file `"g"` whose single line is `"foo"`. -/
def envFoo : CfgEnv :=
  ⟨fun name => if name = "g" then FileState.readable [Except.ok "foo"] else FileState.missing,
   none⟩

/-- Filesystem on which the relative path `"foo"` canonicalizes into the
working directory. -/
def fsFoo : FS :=
  ⟨fun _ => false, fun s => if s = "foo" then some "/cwd/foo" else none, fun _ => ""⟩

/-- Glob collaborator expanding the literal lines `"/a/b"` and `"/a-b"`. -/
def globFnAB : GlobFn := fun line =>
  if line = "/a/b" then some [Except.ok "/a/b"]
  else if line = "/a-b" then some [Except.ok "/a-b"]
  else none

/-- One config file `"g"` listing `"/a/b"` and `"/a-b"`. -/
def envAB : CfgEnv :=
  ⟨fun name =>
    if name = "g" then FileState.readable [Except.ok "/a/b", Except.ok "/a-b"]
    else FileState.missing,
   none⟩

/-- A trivial config environment: no file exists, `HOME` unset. -/
def envNone : CfgEnv := ⟨fun _ => FileState.missing, none⟩

/-- Filesystem with a symlink at `"/a/lnk"` whose parent directory cannot be
canonicalized. -/
def fsRootOnly : FS :=
  ⟨fun s => s == "/a/lnk", fun s => if s = "/" then some "/" else none, fun _ => ""⟩

/-- Filesystem with a symlink at `"/a/lnk"` with target `"/b"`, where the
target happens to canonicalize back to the link's own location. -/
def fsLink : FS :=
  ⟨fun s => s == "/a/lnk",
   fun s =>
    if s = "/a" then some "/a"
    else if s = "/b" then some "/a/lnk"
    else if s = "/" then some "/" else none,
   fun s => if s = "/a/lnk" then "/b" else ""⟩

/-- `fsLink` with the stored link content replaced. -/
def fsLink2 : FS := ⟨fsLink.isSymlink, fsLink.canonicalize, fun _ => "/different"⟩

/-- A coherent filesystem containing the symlink `"/a/lnk"` pointing at
`"/b"`. -/
def fsCoh : FS :=
  ⟨fun s => s == "/a/lnk",
   fun s =>
    if s = "/" then some "/"
    else if s = "/a" then some "/a"
    else if s = "/b" then some "/b"
    else if s = "/a/lnk" then some "/b" else none,
   fun s => if s = "/a/lnk" then "/b" else ""⟩

/-- The empty filesystem: nothing exists. -/
def fsEmpty : FS := ⟨fun _ => false, fun _ => none, fun _ => ""⟩

/-- A spawner whose spawn always fails. -/
def spawnFail : Spawner := fun _ _ => SpawnOutcome.failed

/-- A spawner whose child always exits with code 7. -/
def spawnCode7 : Spawner := fun _ _ => SpawnOutcome.exited (some 7)

/-- A spawner whose child is always killed by a signal (no exit code). -/
def spawnSignal : Spawner := fun _ _ => SpawnOutcome.exited none

/-! ## Theorems -/

theorem filter_arguments_eq_filter (fs : FS) (protected_paths : List String) :
    ∀ args : List String,
      filter_arguments fs args protected_paths =
        args.filter (fun a => !(containsPath protected_paths (normalize_path fs a)))
  | [] => rfl
  | arg :: rest => by
    cases h : containsPath protected_paths (normalize_path fs arg) <;>
      simp [filter_arguments, List.filter_cons, h,
        filter_arguments_eq_filter fs protected_paths rest]

/-- C1: the argument filter returns a subsequence of the input in original
order, containing exactly those arguments whose normalized form is not a
member of the protected set; retained arguments appear verbatim. -/
theorem filter_arguments_subsequence (fs : FS) (args protected_paths : List String) :
    (filter_arguments fs args protected_paths).Sublist args ∧
    filter_arguments fs args protected_paths =
      args.filter (fun a => !(containsPath protected_paths (normalize_path fs a))) ∧
    ∀ a, a ∈ filter_arguments fs args protected_paths ↔
      a ∈ args ∧ containsPath protected_paths (normalize_path fs a) = false := by
  have hf := filter_arguments_eq_filter fs protected_paths args
  refine ⟨hf ▸ List.filter_sublist args, hf, fun a => ?_⟩
  rw [hf, List.mem_filter]
  simp

theorem expandEntries_length_le :
    ∀ (entries : List GlobEntry) (count : Nat),
      (expandEntries entries count).1.length ≤ MAX_GLOB_EXPANSION - count
  | [], _ => by simp [expandEntries]
  | Except.error e :: rest, count => by
    simpa [expandEntries] using expandEntries_length_le rest count
  | Except.ok p :: rest, count => by
    by_cases h : MAX_GLOB_EXPANSION < count + 1
    · simp [expandEntries, h]
    · have hle : count + 1 ≤ MAX_GLOB_EXPANSION := Nat.not_lt.mp h
      have ih := expandEntries_length_le rest (count + 1)
      simp only [expandEntries, h, if_false]
      simp only [List.length_cons]
      omega

theorem expandEntries_truncates :
    ∀ (entries : List GlobEntry) (count : Nat), count ≤ MAX_GLOB_EXPANSION →
      MAX_GLOB_EXPANSION < count + (okPaths entries).length →
      (expandEntries entries count).1 = (okPaths entries).take (MAX_GLOB_EXPANSION - count) ∧
      (expandEntries entries count).2.count Diag.truncation = 1
  | [], count, hc, hlen => by simp [okPaths] at hlen; omega
  | Except.error e :: rest, count, hc, hlen => by
    have ih := expandEntries_truncates rest count hc (by simpa [okPaths] using hlen)
    simpa [expandEntries, okPaths, List.count_cons] using ih
  | Except.ok p :: rest, count, hc, hlen => by
    by_cases h : MAX_GLOB_EXPANSION < count + 1
    · have hcm : count = MAX_GLOB_EXPANSION := by omega
      simp [expandEntries, h, hcm, List.count_cons]
    · have hle : count + 1 ≤ MAX_GLOB_EXPANSION := Nat.not_lt.mp h
      have hlen' : MAX_GLOB_EXPANSION < (count + 1) + (okPaths rest).length := by
        simp [okPaths] at hlen ⊢; omega
      have ih := expandEntries_truncates rest (count + 1) hle hlen'
      have htake : MAX_GLOB_EXPANSION - count = (MAX_GLOB_EXPANSION - (count + 1)) + 1 := by
        omega
      simp [expandEntries, h, okPaths, htake, ih.1, ih.2]

/-- C5: a glob line with more than `MAX_GLOB_EXPANSION` (256) successful
matches expands to exactly the first 256 of them, as a success, with exactly
one truncation diagnostic; and no line ever expands to more than 256
paths. -/
theorem parse_line_truncates (globFn : GlobFn) (line : String) (entries : List GlobEntry)
    (hglob : globFn line = some entries)
    (hcount : MAX_GLOB_EXPANSION < (okPaths entries).length) :
    (parse_line globFn (Except.ok line)).1 =
      some ((okPaths entries).take MAX_GLOB_EXPANSION) ∧
    ((okPaths entries).take MAX_GLOB_EXPANSION).length = MAX_GLOB_EXPANSION ∧
    (parse_line globFn (Except.ok line)).2.count Diag.truncation = 1 ∧
    ∀ (lr : Except Unit String) (ps : List String) (ds : List Diag),
      parse_line globFn lr = (some ps, ds) → ps.length ≤ MAX_GLOB_EXPANSION := by
  have h := expandEntries_truncates entries 0 (Nat.zero_le _) (by simpa using hcount)
  refine ⟨?_, ?_, ?_, ?_⟩
  · simp [parse_line, hglob, h.1]
  · simp [List.length_take]; omega
  · simp [parse_line, hglob, h.2]
  · intro lr ps ds hp
    cases lr with
    | error e => simp [parse_line] at hp
    | ok l =>
      cases hg : globFn l with
      | none => simp [parse_line, hg] at hp
      | some es =>
        simp [parse_line, hg] at hp
        have := expandEntries_length_le es 0
        rw [hp.1] at this
        simpa using this

/-- C5 witness: a concrete line with 257 matches. -/
theorem parse_line_truncates_witness :
    globFnTrunc "g" = some entriesTrunc ∧
    MAX_GLOB_EXPANSION < (okPaths entriesTrunc).length ∧
    ((parse_line globFnTrunc (Except.ok "g")).1 =
        some ((okPaths entriesTrunc).take MAX_GLOB_EXPANSION) ∧
      ((okPaths entriesTrunc).take MAX_GLOB_EXPANSION).length = MAX_GLOB_EXPANSION ∧
      (parse_line globFnTrunc (Except.ok "g")).2.count Diag.truncation = 1 ∧
      ∀ (lr : Except Unit String) (ps : List String) (ds : List Diag),
        parse_line globFnTrunc lr = (some ps, ds) → ps.length ≤ MAX_GLOB_EXPANSION) :=
  ⟨rfl, by set_option maxRecDepth 4096 in decide,
   parse_line_truncates globFnTrunc "g" entriesTrunc rfl
     (by set_option maxRecDepth 4096 in decide)⟩

/-- C8: when the spawn succeeds with an exit code, `run` returns that code;
when the spawn fails, `run` returns the fixed failure code 1 and a
diagnostic; the child is spawned exactly once, on the full filtered argument
vector, so no partial forwarding can occur. -/
theorem run_forwards_exit_code (spawn : Spawner) (fs : FS) (globFn : GlobFn) (env : CfgEnv)
    (rm_binary : String) (args globals locals : List String) :
    (∀ c : Int,
      spawn rm_binary
          (filter_arguments fs args (read_config_files globFn env globals locals).1) =
        SpawnOutcome.exited (some c) →
      (run spawn fs globFn env rm_binary args globals locals).1 = c) ∧
    (spawn rm_binary
        (filter_arguments fs args (read_config_files globFn env globals locals).1) =
       SpawnOutcome.failed →
      (run spawn fs globFn env rm_binary args globals locals).1 = 1 ∧
      Diag.spawnFailed ∈ (run spawn fs globFn env rm_binary args globals locals).2) := by
  constructor
  · intro c hc
    simp [run, hc]
  · intro hf
    simp [run, hf]

/-- C8 witness: a child exiting with code 7, and a failing spawn. -/
theorem run_forwards_exit_code_witness :
    (run spawnCode7 fsEmpty globFnFoo envNone "/bin/rm" ["x"] [] []).1 = 7 ∧
    ((run spawnFail fsEmpty globFnFoo envNone "/bin/rm" ["x"] [] []).1 = 1 ∧
      Diag.spawnFailed ∈ (run spawnFail fsEmpty globFnFoo envNone "/bin/rm" ["x"] [] []).2) :=
  ⟨(run_forwards_exit_code spawnCode7 fsEmpty globFnFoo envNone "/bin/rm" ["x"] [] []).1 7 rfl,
   (run_forwards_exit_code spawnFail fsEmpty globFnFoo envNone "/bin/rm" ["x"] [] []).2 rfl⟩

/-- C10: when the child terminates without an exit code (killed by a
signal), `run` returns the fixed failure code 1. -/
theorem run_signal_death (spawn : Spawner) (fs : FS) (globFn : GlobFn) (env : CfgEnv)
    (rm_binary : String) (args globals locals : List String)
    (h : spawn rm_binary
        (filter_arguments fs args (read_config_files globFn env globals locals).1) =
      SpawnOutcome.exited none) :
    (run spawn fs globFn env rm_binary args globals locals).1 = 1 := by
  simp [run, h]

/-- C10 witness: a child killed by a signal. -/
theorem run_signal_death_witness :
    (run spawnSignal fsEmpty globFnFoo envNone "/bin/rm" ["x"] [] []).1 = 1 :=
  run_signal_death spawnSignal fsEmpty globFnFoo envNone "/bin/rm" ["x"] [] [] rfl

/-! ### Sorting and dedup lemmas -/

theorem compKey_injective : Function.Injective compKey := by
  intro a b h
  cases a <;> cases b <;> simp_all [compKey]
  exact String.ext (by assumption)

theorem parsePath_eq_of_pathKey_eq {a b : String} (h : pathKey a = pathKey b) :
    parsePath a = parsePath b :=
  List.map_injective_iff.mpr compKey_injective h

theorem dedupTail_sublist : ∀ (l : List String) (prev : String),
    (dedupTail prev l).Sublist l
  | [], _ => List.Sublist.refl _
  | b :: rest, prev => by
    cases h : pathEq b prev with
    | true =>
      simpa [dedupTail, h] using
        (dedupTail_sublist rest prev).trans (List.sublist_cons_self b rest)
    | false =>
      simpa [dedupTail, h] using List.Sublist.cons₂ b (dedupTail_sublist rest b)

theorem dedupConsec_sublist : ∀ l : List String, (dedupConsec l).Sublist l
  | [] => List.Sublist.refl _
  | a :: rest => List.Sublist.cons₂ a (dedupTail_sublist rest a)

theorem dedupTail_chain : ∀ (l : List String) (prev : String),
    List.Sorted pathLe (prev :: l) → List.Chain' pathLt (prev :: dedupTail prev l)
  | [], _, _ => List.chain'_singleton _
  | b :: rest, prev, hs => by
    cases h : pathEq b prev with
    | true =>
      have hsub : (prev :: rest).Sublist (prev :: b :: rest) :=
        List.Sublist.cons₂ prev (List.sublist_cons_self b rest)
      have hs' : List.Sorted pathLe (prev :: rest) := List.Pairwise.sublist hsub hs
      simpa [dedupTail, h] using dedupTail_chain rest prev hs'
    | false =>
      have hs' : List.Sorted pathLe (b :: rest) := hs.of_cons
      have hab : pathLe prev b := List.rel_of_sorted_cons hs b (List.mem_cons_self b rest)
      have hne : pathKey prev ≠ pathKey b := by
        intro hk
        have hne' : parsePath b ≠ parsePath prev := by
          simpa [pathEq] using h
        exact hne' (parsePath_eq_of_pathKey_eq hk).symm
      have hlt : pathLt prev b := lt_of_le_of_ne hab hne
      have ih := dedupTail_chain rest b hs'
      simpa [dedupTail, h] using List.chain'_cons.mpr ⟨hlt, ih⟩

theorem dedupConsec_chain : ∀ l : List String, List.Sorted pathLe l →
    List.Chain' pathLt (dedupConsec l)
  | [], _ => by simp [dedupConsec]
  | a :: rest, hs => dedupTail_chain rest a hs

theorem dedupConsec_ne_nil (a : String) (l : List String) :
    dedupConsec (a :: l) ≠ [] := by
  simp [dedupConsec]

theorem pathSortDedup_sorted (l : List String) :
    List.Sorted pathLe (pathSortDedup l) ∧ List.Chain' pathLt (pathSortDedup l) :=
  ⟨List.Pairwise.sublist (dedupConsec_sublist _) (List.sorted_insertionSort pathLe l),
   dedupConsec_chain _ (List.sorted_insertionSort pathLe l)⟩

theorem pathSortDedup_ne_nil (l : List String) (h : l ≠ []) : pathSortDedup l ≠ [] := by
  unfold pathSortDedup
  cases hs : List.insertionSort pathLe l with
  | nil =>
    have := List.length_insertionSort pathLe l
    rw [hs] at this
    cases l with
    | nil => exact absurd rfl h
    | cons x xs => simp at this
  | cons x xs => exact dedupConsec_ne_nil x xs

theorem foldl_fixed_of_step_id {α β : Type} (f : α → β → α) (h : ∀ a b, f a b = a) :
    ∀ (l : List β) (a : α), l.foldl f a = a
  | [], _ => rfl
  | b :: t, a => by rw [List.foldl_cons, h, foldl_fixed_of_step_id f h t]

theorem read_config_nothing (globFn : GlobFn) (env : CfgEnv) (name : String)
    (h : env.files name = FileState.missing ∨ env.files name = FileState.readable []) :
    read_config globFn env name = (some [], []) := by
  rcases h with h | h <;> simp [read_config, h]

theorem collect_paths_nothing (globFn : GlobFn) (env : CfgEnv) (globals locals : List String)
    (h : ∀ name, env.files name = FileState.missing ∨ env.files name = FileState.readable []) :
    collect_paths globFn env globals locals = ([], []) := by
  unfold collect_paths
  have hstep : ∀ (acc : List String × List Diag) (name : String),
      (match read_config globFn env name with
        | (some paths, ds) => (acc.1 ++ paths, acc.2 ++ ds)
        | (none, ds) => (acc.1, acc.2 ++ ds)) = acc := by
    intro acc name
    rw [read_config_nothing globFn env name (h name)]
    simp
  cases env.home with
  | none => simpa using foldl_fixed_of_step_id _ hstep globals ([], [])
  | some homeDir =>
    simp only []
    rw [foldl_fixed_of_step_id _ hstep globals ([], []),
      foldl_fixed_of_step_id _ (fun acc f => hstep acc (joinPath homeDir f)) locals ([], [])]

theorem collect_paths_nil (globFn : GlobFn) (env : CfgEnv) :
    collect_paths globFn env [] [] = ([], []) := by
  unfold collect_paths
  cases env.home <;> simp

/-- C6: with no configured sources — or with all of them missing or empty —
the loader returns exactly the fixed default list, which is already sorted
and deduplicated, independent of the filesystem and glob collaborators. -/
theorem loader_defaults (globFn : GlobFn) (env : CfgEnv) :
    ((read_config_files globFn env [] []).1 = DEFAULT_PATHS) ∧
    (∀ globals locals : List String,
      (∀ name, env.files name = FileState.missing ∨ env.files name = FileState.readable []) →
      (read_config_files globFn env globals locals).1 = DEFAULT_PATHS) ∧
    pathSortDedup DEFAULT_PATHS = DEFAULT_PATHS := by
  have hfix : pathSortDedup DEFAULT_PATHS = DEFAULT_PATHS := by decide
  refine ⟨?_, ?_, hfix⟩
  · simp [read_config_files, collect_paths_nil, hfix]
  · intro globals locals h
    simp [read_config_files, collect_paths_nothing globFn env globals locals h, hfix]

/-- C6 witness: two configured but missing sources. -/
theorem loader_defaults_witness :
    (read_config_files globFnFoo envNone ["/etc/safe-rm.conf"] [".config/safe-rm"]).1 =
      DEFAULT_PATHS :=
  (loader_defaults globFnFoo envNone).2.1 ["/etc/safe-rm.conf"] [".config/safe-rm"]
    (fun _ => Or.inl rfl)

/-- C7 (amended): for every combination of sources the loader output is
sorted ascending in the componentwise `PathBuf` order (lexicographic over
path components, the order `Vec::<PathBuf>::sort` uses), pairwise distinct
in that order, and non-empty. -/
theorem loader_output_sorted (globFn : GlobFn) (env : CfgEnv) (globals locals : List String) :
    List.Sorted pathLe (read_config_files globFn env globals locals).1 ∧
    List.Pairwise pathLt (read_config_files globFn env globals locals).1 ∧
    (read_config_files globFn env globals locals).1 ≠ [] := by
  have hbase :
      (read_config_files globFn env globals locals).1 =
        pathSortDedup
          (if (collect_paths globFn env globals locals).1.isEmpty then DEFAULT_PATHS
           else (collect_paths globFn env globals locals).1) := rfl
  refine ⟨hbase ▸ (pathSortDedup_sorted _).1,
    hbase ▸ List.chain'_iff_pairwise.mp (pathSortDedup_sorted _).2, hbase ▸ ?_⟩
  apply pathSortDedup_ne_nil
  cases hc : (collect_paths globFn env globals locals).1 with
  | nil => simp [DEFAULT_PATHS]
  | cons x xs => simp

/-- C7 counterexample: the output is *not* sorted in lexicographic string
order — with entries `"/a/b"` and `"/a-b"` the componentwise `PathBuf` sort
leaves `"/a/b"` first although `"/a-b" < "/a/b"` as strings. -/
theorem loader_output_not_string_sorted :
    (read_config_files globFnAB envAB ["g"] []).1 = ["/a/b", "/a-b"] ∧
    ¬ List.Pairwise (fun a b : String => a ≤ b)
        (read_config_files globFnAB envAB ["g"] []).1 := by
  have h : (read_config_files globFnAB envAB ["g"] []).1 = ["/a/b", "/a-b"] := by decide
  have hlt : ("/a-b" : String) < "/a/b" := by
    rw [String.lt_iff_toList_lt]
    exact List.Lex.cons (List.Lex.cons (List.Lex.rel (by decide)))
  refine ⟨h, fun hp => ?_⟩
  rw [h] at hp
  have hle : ("/a/b" : String) ≤ "/a-b" :=
    (List.pairwise_cons.mp hp).1 "/a-b" (by simp)
  exact absurd hle (not_le.mpr hlt)

/-- C3 (amended): every entry of the loader's protected set is one of the
raw glob-expansion results — or one of the built-in defaults — verbatim; no
normalization is applied to the config side. -/
theorem protected_entries_verbatim (globFn : GlobFn) (env : CfgEnv)
    (globals locals : List String) :
    ∀ e ∈ (read_config_files globFn env globals locals).1,
      e ∈ (collect_paths globFn env globals locals).1 ∨ e ∈ DEFAULT_PATHS := by
  intro e he
  have h2 : e ∈ List.insertionSort pathLe
      (if (collect_paths globFn env globals locals).1.isEmpty then DEFAULT_PATHS
       else (collect_paths globFn env globals locals).1) :=
    (dedupConsec_sublist _).subset he
  rw [List.mem_insertionSort] at h2
  by_cases hbe : (collect_paths globFn env globals locals).1.isEmpty
  · rw [if_pos hbe] at h2
    exact Or.inr h2
  · rw [if_neg hbe] at h2
    exact Or.inl h2

/-- C3 amended-claim witness: the literal config entry `"foo"`. -/
theorem protected_entries_verbatim_witness :
    "foo" ∈ (collect_paths globFnFoo envFoo ["g"] []).1 ∨ "foo" ∈ DEFAULT_PATHS :=
  protected_entries_verbatim globFnFoo envFoo ["g"] [] "foo" (by decide)

/-- C3 counterexample: the loader stores the expansion result `"foo"`
verbatim although its canonical form (as computed for runtime arguments) is
`"/cwd/foo"`; consequently the runtime argument `"foo"` is not even dropped,
because only the argument side is normalized before the membership test. -/
theorem protected_entries_not_normalized :
    (read_config_files globFnFoo envFoo ["g"] []).1 = ["foo"] ∧
    normalize_path fsFoo "foo" = "/cwd/foo" ∧
    ("foo" : String) ≠ "/cwd/foo" ∧
    filter_arguments fsFoo ["foo"] (read_config_files globFnFoo envFoo ["g"] []).1 =
      ["foo"] := by
  refine ⟨by decide, by decide, by decide, by decide⟩

/-! ### Path-string lemmas -/

theorem splitSlash_ne_nil : ∀ l : List Char, splitSlash l ≠ []
  | [] => by simp [splitSlash]
  | c :: rest => by
    by_cases h : c = '/'
    · simp [splitSlash, h]
    · cases hs : splitSlash rest with
      | nil => exact absurd hs (splitSlash_ne_nil rest)
      | cons piece pieces => simp [splitSlash, h, hs]

theorem splitSlash_append : ∀ l₁ l₂ : List Char,
    splitSlash (l₁ ++ '/' :: l₂) = splitSlash l₁ ++ splitSlash l₂
  | [], l₂ => by simp [splitSlash]
  | c :: rest, l₂ => by
    by_cases h : c = '/'
    · simp [splitSlash, h, splitSlash_append rest l₂]
    · have ih := splitSlash_append rest l₂
      cases hs : splitSlash rest with
      | nil => exact absurd hs (splitSlash_ne_nil rest)
      | cons piece pieces =>
        rw [hs] at ih
        simp [splitSlash, h, ih, hs]

theorem splitSlash_no_slash : ∀ l : List Char, '/' ∉ l → splitSlash l = [l]
  | [], _ => rfl
  | c :: rest, h => by
    have hc : ¬(c = '/') := fun hc => h (hc ▸ List.mem_cons_self c rest)
    have ih := splitSlash_no_slash rest (fun hm => h (List.mem_cons_of_mem c hm))
    simp [splitSlash, hc, ih]

theorem data_eq_nil_iff {s : String} : s.data = [] ↔ s = "" :=
  ⟨fun h => String.ext h, fun h => h ▸ rfl⟩

theorem isAbs_data {s : String} (h : isAbs s = true) : ∃ t, s.data = '/' :: t := by
  unfold isAbs at h
  rcases hd : s.data with _ | ⟨c, t⟩ <;> rw [hd] at h
  · cases h
  · exact ⟨t, by rw [of_decide_eq_true h]⟩

theorem validName_facts {n : String} (h : validNameB n = true) :
    n.data ≠ [] ∧ '/' ∉ n.data ∧ pieceToComp n.data = Comp.normal n ∧ isAbs n = false := by
  unfold validNameB at h
  simp only [Bool.and_eq_true, decide_eq_true_eq, Bool.not_eq_true', ne_eq] at h
  obtain ⟨⟨⟨h1, h2⟩, h3⟩, h4⟩ := h
  have hnil : n.data ≠ [] := fun hd => h1 (data_eq_nil_iff.mp hd)
  have hmem : '/' ∉ n.data := by simpa using h4
  refine ⟨hnil, hmem, ?_, ?_⟩
  · unfold pieceToComp
    rw [if_neg (fun hd : n.data = ['.'] => h2 (String.ext hd)),
      if_neg (fun hd : n.data = ['.', '.'] => h3 (String.ext hd))]
  · unfold isAbs
    rcases hd : n.data with _ | ⟨c, t⟩
    · rfl
    · have : c ≠ '/' := fun hc => hmem (hd ▸ hc ▸ List.mem_cons_self c t)
      simp [this]

theorem parsePath_abs {s : String} (h : isAbs s = true) :
    parsePath s = Comp.rootDir :: (rawComps s).filter (fun c => c ≠ Comp.curDir) := by
  simp [parsePath, h]

theorem parsePath_root : parsePath "/" = [Comp.rootDir] := by decide

theorem cleanAbs_facts {s : String} (h : cleanAbsB s = true) :
    isAbs s = true ∧ renderPath (parsePath s) = s ∧
    (s = "/" ∨ s.data.getLast? ≠ some '/') ∧
    ∃ rest, parsePath s = Comp.rootDir :: rest := by
  unfold cleanAbsB at h
  simp only [Bool.and_eq_true, Bool.or_eq_true, beq_iff_eq, decide_eq_true_eq,
    bne_iff_ne, ne_eq] at h
  obtain ⟨⟨⟨h1, h2⟩, h3⟩, h4⟩ := h
  refine ⟨h1, h2, ?_, ?_⟩
  · rcases h3 with h3 | h3
    · exact Or.inl h3
    · exact Or.inr h3
  · rcases hp : parsePath s with _ | ⟨c, rest⟩ <;> rw [hp] at h4
    · cases h4
    · cases c with
      | rootDir => exact ⟨rest, rfl⟩
      | curDir => cases h4
      | parentDir => cases h4
      | normal m => cases h4

theorem joinPath_root {n : String} (hn : isAbs n = false) :
    joinPath "/" n = "/" ++ n := by
  simp [joinPath, hn]

theorem joinPath_general {dir n : String} (hne : dir ≠ "")
    (hlast : dir.data.getLast? ≠ some '/') (hn : isAbs n = false) :
    joinPath dir n = dir ++ "/" ++ n := by
  simp [joinPath, hn, hne, hlast]

theorem data_append_slash (dir n : String) :
    (dir ++ "/" ++ n).data = dir.data ++ '/' :: n.data := by
  simp [String.data_append]

theorem rawComps_append_name {dir n : String} (hn : validNameB n = true) :
    rawComps (dir ++ "/" ++ n) = rawComps dir ++ [Comp.normal n] := by
  obtain ⟨hnil, hmem, hpiece, _⟩ := validName_facts hn
  unfold rawComps
  rw [data_append_slash, splitSlash_append, splitSlash_no_slash n.data hmem,
    List.filter_append, List.map_append]
  simp [hnil, hpiece]

theorem isAbs_append {dir : String} (h : isAbs dir = true) (rest : String) :
    isAbs (dir ++ rest) = true := by
  obtain ⟨t, ht⟩ := isAbs_data h
  unfold isAbs
  rw [String.data_append, ht]
  simp

theorem parsePath_join {dir n : String} (hclean : cleanAbsB dir = true)
    (hn : validNameB n = true) :
    parsePath (joinPath dir n) = parsePath dir ++ [Comp.normal n] := by
  obtain ⟨habs, hrender, hshape, rest, hrest⟩ := cleanAbs_facts hclean
  obtain ⟨hnil, hmem, hpiece, hnabs⟩ := validName_facts hn
  rcases hshape with hroot | hlast
  · subst hroot
    rw [joinPath_root hnabs, parsePath_root]
    have hdata : ("/" ++ n).data = '/' :: n.data := by simp [String.data_append]
    have habs2 : isAbs ("/" ++ n) = true := isAbs_append (by decide) n
    rw [parsePath_abs habs2]
    unfold rawComps
    rw [hdata]
    have : splitSlash ('/' :: n.data) = [] :: splitSlash n.data := by simp [splitSlash]
    rw [this, splitSlash_no_slash n.data hmem]
    simp [hnil, hpiece]
  · have hne : dir ≠ "" := by
      intro he
      rw [he] at habs
      cases habs
    rw [joinPath_general hne hlast hnabs]
    have habs2 : isAbs (dir ++ "/" ++ n) = true := by
      have := isAbs_append habs ("/" ++ n)
      rwa [← String.append_assoc] at this
    rw [parsePath_abs habs2, rawComps_append_name hn, List.filter_append,
      parsePath_abs habs]
    simp

theorem parent_eq_of_parsePath_concat {s : String} {l : List Comp} {c : Comp}
    (h : parsePath s = Comp.rootDir :: (l ++ [c])) :
    parent s = some (renderPath (Comp.rootDir :: l)) := by
  unfold parent
  rw [h]
  cases hl : l ++ [c] with
  | nil => exact absurd hl (by simp)
  | cons y ys =>
    have hdrop : (y :: ys).dropLast = l := by
      rw [← hl]
      exact List.dropLast_concat
    simp only [List.dropLast_cons₂]
    rw [hdrop]

theorem parent_join {dir n : String} (hclean : cleanAbsB dir = true)
    (hn : validNameB n = true) :
    parent (joinPath dir n) = some dir := by
  obtain ⟨habs, hrender, hshape, rest, hrest⟩ := cleanAbs_facts hclean
  have hp : parsePath (joinPath dir n) = Comp.rootDir :: (rest ++ [Comp.normal n]) := by
    rw [parsePath_join hclean hn, hrest]
    rfl
  rw [parent_eq_of_parsePath_concat hp, ← hrest, hrender]

theorem fileName_join {dir n : String} (hclean : cleanAbsB dir = true)
    (hn : validNameB n = true) :
    fileName (joinPath dir n) = some n := by
  rw [fileName, parsePath_join hclean hn, List.getLast?_concat]

theorem isAbs_joinPath {dir n : String} (hclean : cleanAbsB dir = true)
    (hn : validNameB n = true) : isAbs (joinPath dir n) = true := by
  obtain ⟨habs, _, hshape, _, _⟩ := cleanAbs_facts hclean
  obtain ⟨_, _, _, hnabs⟩ := validName_facts hn
  rcases hshape with hroot | hlast
  · subst hroot
    rw [joinPath_root hnabs]
    exact isAbs_append (by decide) n
  · have hne : dir ≠ "" := by
      intro he
      rw [he] at habs
      cases habs
    rw [joinPath_general hne hlast hnabs]
    have := isAbs_append habs ("/" ++ n)
    rwa [← String.append_assoc] at this

theorem parsePath_explicit_rel {p : String} (h : isAbs p = false) :
    parsePath (explicitPath p) =
      Comp.curDir :: (rawComps p).filter (fun c => c ≠ Comp.curDir) := by
  have hj : explicitPath p = "." ++ "/" ++ p := by
    simp [explicitPath, h, joinPath]
  have hdata : ("." ++ "/" ++ p).data = '.' :: '/' :: p.data := by
    simp [String.data_append]
  have hsplit : splitSlash ('.' :: '/' :: p.data) = ['.'] :: splitSlash p.data := by
    simp [splitSlash]
  have habs : isAbs ("." ++ "/" ++ p) = false := by
    unfold isAbs
    rw [hdata]
    simp
  have hraw : rawComps ("." ++ "/" ++ p) = Comp.curDir :: rawComps p := by
    unfold rawComps
    rw [hdata, hsplit]
    simp [pieceToComp]
  rw [hj]
  unfold parsePath
  rw [habs, hraw]
  simp

theorem parent_explicit_rel {p : String} (h : isAbs p = false) :
    ∃ d, parent (explicitPath p) = some d := by
  rcases hl : (rawComps p).filter (fun c => c ≠ Comp.curDir) with _ | ⟨y, ys⟩
  · exact ⟨_, by rw [parent, parsePath_explicit_rel h, hl]⟩
  · exact ⟨_, by rw [parent, parsePath_explicit_rel h, hl]⟩

theorem parsePath_eq_root_of_parent_none {p : String} (hab : isAbs p = true)
    (h : parent p = none) : parsePath p = [Comp.rootDir] := by
  have hp := parsePath_abs hab
  rw [parent, hp] at h
  cases hl : (rawComps p).filter (fun c => c ≠ Comp.curDir) with
  | nil => rw [hp, hl]
  | cons y ys =>
    rw [hl] at h
    simp at h

theorem fileName_none_of_parsePath_root {p : String} (h : parsePath p = [Comp.rootDir]) :
    fileName p = none := by
  rw [fileName, h]
  rfl

theorem parent_root : parent "/" = none := by decide

/-- C4: the normalizer is total — on any error (the path is not a symlink
and cannot be canonicalized, or it is a symlink whose parent cannot be
canonicalized) it falls back to the original unmodified string; furthermore
`normalize("/") = "/"` (given the OS facts that `/` is not a symlink and
canonicalizes to itself), a pathname whose explicit form has no parent
component is rooted at `"/"`, and `normalize("") = ""` (the empty string
does not exist, so `lstat` and `canonicalize` both fail). -/
theorem normalize_path_total (fs : FS) :
    (∀ arg, fs.isSymlink arg = false → fs.canonicalize arg = none →
      normalize_path fs arg = arg) ∧
    (∀ arg, fs.isSymlink arg = true → symlink_canonicalize fs arg = none →
      normalize_path fs arg = arg) ∧
    (fs.isSymlink "/" = false → fs.canonicalize "/" = some "/" →
      normalize_path fs "/" = "/") ∧
    (∀ p, parent (explicitPath p) = none → symlink_canonicalize fs p = some "/") ∧
    (fs.isSymlink "" = false → fs.canonicalize "" = none →
      normalize_path fs "" = "") := by
  refine ⟨?_, ?_, ?_, ?_, ?_⟩
  · intro arg h1 h2
    simp [normalize_path, h1, h2]
  · intro arg h1 h2
    simp [normalize_path, h1, h2]
  · intro h1 h2
    simp [normalize_path, h1, h2]
  · intro p hp0
    cases hab : isAbs p with
    | false =>
      obtain ⟨d, hd⟩ := parent_explicit_rel hab
      rw [hd] at hp0
      cases hp0
    | true =>
      have hex : explicitPath p = p := by simp [explicitPath, hab]
      have hparse := parsePath_eq_root_of_parent_none hab (hex ▸ hp0)
      have hfn := fileName_none_of_parsePath_root hparse
      simp [symlink_canonicalize, hp0, hfn, parent_root]
  · intro h1 h2
    simp [normalize_path, h1, h2]

/-- C4 witness: a filesystem where only `/` exists and `/a/lnk` is a symlink
in an unresolvable parent directory. -/
theorem normalize_path_total_witness :
    (fsRootOnly.isSymlink "x" = false ∧ fsRootOnly.canonicalize "x" = none ∧
      normalize_path fsRootOnly "x" = "x") ∧
    (fsRootOnly.isSymlink "/a/lnk" = true ∧
      symlink_canonicalize fsRootOnly "/a/lnk" = none ∧
      normalize_path fsRootOnly "/a/lnk" = "/a/lnk") ∧
    normalize_path fsRootOnly "/" = "/" ∧
    (parent (explicitPath "/") = none ∧ symlink_canonicalize fsRootOnly "/" = some "/") ∧
    normalize_path fsRootOnly "" = "" :=
  ⟨⟨rfl, rfl, (normalize_path_total fsRootOnly).1 "x" rfl rfl⟩,
   ⟨rfl, by decide, (normalize_path_total fsRootOnly).2.1 "/a/lnk" rfl (by decide)⟩,
   (normalize_path_total fsRootOnly).2.2.1 rfl rfl,
   ⟨by decide, (normalize_path_total fsRootOnly).2.2.2.1 "/" (by decide)⟩,
   (normalize_path_total fsRootOnly).2.2.2.2 rfl rfl⟩

/-- C2: normalization of a symlink never resolves through the link target —
the result depends only on the `lstat` and ancestor-canonicalization views of
the filesystem, never on the stored link content; it is the canonicalized
parent directory rejoined with the final component unchanged; and it can
only coincide with the normalization of the target when the target's
normalized form has the link's own resolved parent as its parent. -/
theorem normalize_symlink_own_location :
    (∀ fs₁ fs₂ : FS, fs₁.isSymlink = fs₂.isSymlink →
      fs₁.canonicalize = fs₂.canonicalize →
      ∀ q, normalize_path fs₁ q = normalize_path fs₂ q) ∧
    (∀ (fs : FS) (p : String), fs.isSymlink p = true →
      normalize_path fs p = (symlink_canonicalize fs p).getD p) ∧
    (∀ (fs : FS) (p d dir n : String), fs.isSymlink p = true →
      parent (explicitPath p) = some d → fs.canonicalize d = some dir →
      fileName p = some n → normalize_path fs p = joinPath dir n) ∧
    (∀ (fs : FS) (p d dir n : String), fs.isSymlink p = true →
      parent (explicitPath p) = some d → fs.canonicalize d = some dir →
      fileName p = some n → cleanAbsB dir = true → validNameB n = true →
      normalize_path fs p = normalize_path fs (fs.target p) →
      parent (normalize_path fs (fs.target p)) = some dir) := by
  have hrejoin : ∀ (fs : FS) (p d dir n : String), fs.isSymlink p = true →
      parent (explicitPath p) = some d → fs.canonicalize d = some dir →
      fileName p = some n → normalize_path fs p = joinPath dir n := by
    intro fs p d dir n h hd hcd hfn
    have hs : symlink_canonicalize fs p = some (joinPath dir n) := by
      simp [symlink_canonicalize, hd, hcd, hfn]
    simp [normalize_path, h, hs]
  refine ⟨?_, ?_, hrejoin, ?_⟩
  · intro fs₁ fs₂ h1 h2 q
    cases fs₁ with
    | mk s₁ c₁ t₁ =>
      cases fs₂ with
      | mk s₂ c₂ t₂ =>
        cases h1
        cases h2
        rfl
  · intro fs p h
    cases hs : symlink_canonicalize fs p <;> simp [normalize_path, h, hs]
  · intro fs p d dir n h hd hcd hfn hclean hvn heq
    rw [← heq, hrejoin fs p d dir n h hd hcd hfn]
    exact parent_join hclean hvn

/-- C2 witness: the symlink `/a/lnk` on `fsLink`, whose target `"/b"`
happens to canonicalize back to the link's own location. -/
theorem normalize_symlink_own_location_witness :
    normalize_path fsLink "/a/lnk" = normalize_path fsLink2 "/a/lnk" ∧
    normalize_path fsLink "/a/lnk" = (symlink_canonicalize fsLink "/a/lnk").getD "/a/lnk" ∧
    normalize_path fsLink "/a/lnk" = joinPath "/a" "lnk" ∧
    parent (normalize_path fsLink (fsLink.target "/a/lnk")) = some "/a" :=
  ⟨normalize_symlink_own_location.1 fsLink fsLink2 rfl rfl "/a/lnk",
   normalize_symlink_own_location.2.1 fsLink "/a/lnk" rfl,
   normalize_symlink_own_location.2.2.1 fsLink "/a/lnk" "/a" "/a" "lnk" rfl (by decide)
     rfl (by decide),
   normalize_symlink_own_location.2.2.2 fsLink "/a/lnk" "/a" "/a" "lnk" rfl (by decide)
     rfl (by decide) (by decide) (by decide) (by decide)⟩

/-- C9: on a coherent filesystem, normalization is idempotent:
`normalize(normalize(p)) = normalize(p)` for every path. -/
theorem normalize_path_idempotent (fs : FS) (hc : Coherent fs) (p : String) :
    normalize_path fs (normalize_path fs p) = normalize_path fs p := by
  cases hsym : fs.isSymlink p with
  | false =>
    cases hcan : fs.canonicalize p with
    | none =>
      have h1 : normalize_path fs p = p := by simp [normalize_path, hsym, hcan]
      rw [h1]
      exact h1
    | some q =>
      have h1 : normalize_path fs p = q := by simp [normalize_path, hsym, hcan]
      have hq1 : fs.isSymlink q = false := hc.canon_not_symlink p q hcan
      have hq2 : fs.canonicalize q = some q := hc.canon_fix p q hcan
      rw [h1]
      simp [normalize_path, hq1, hq2, h1]
  | true =>
    obtain ⟨n, hfn, hvn⟩ := hc.symlink_name p hsym
    have hpar : ∃ d, parent (explicitPath p) = some d := by
      cases hab : isAbs p with
      | false => exact parent_explicit_rel hab
      | true =>
        cases hp0 : parent (explicitPath p) with
        | some d => exact ⟨d, rfl⟩
        | none =>
          exfalso
          have hex : explicitPath p = p := by simp [explicitPath, hab]
          have hparse := parsePath_eq_root_of_parent_none hab (hex ▸ hp0)
          rw [fileName_none_of_parsePath_root hparse] at hfn
          cases hfn
    obtain ⟨d, hd⟩ := hpar
    cases hcd : fs.canonicalize d with
    | none =>
      have hsc : symlink_canonicalize fs p = none := by
        simp [symlink_canonicalize, hd, hcd]
      have h1 : normalize_path fs p = p := by simp [normalize_path, hsym, hsc]
      rw [h1]
      exact h1
    | some dir =>
      have hsc : symlink_canonicalize fs p = some (joinPath dir n) := by
        simp [symlink_canonicalize, hd, hcd, hfn]
      have h1 : normalize_path fs p = joinPath dir n := by
        simp [normalize_path, hsym, hsc]
      have hdirclean : cleanAbsB dir = true := hc.canon_clean d dir hcd
      have hdirfix : fs.canonicalize dir = some dir := hc.canon_fix d dir hcd
      have hlsym : fs.isSymlink (joinPath dir n) = true :=
        hc.symlink_self p (joinPath dir n) hsym hsc
      have habs : isAbs (joinPath dir n) = true := isAbs_joinPath hdirclean hvn
      have hexp : explicitPath (joinPath dir n) = joinPath dir n := by
        simp [explicitPath, habs]
      have hsc2 : symlink_canonicalize fs (joinPath dir n) = some (joinPath dir n) := by
        simp [symlink_canonicalize, hexp, parent_join hdirclean hvn, hdirfix,
          fileName_join hdirclean hvn]
      rw [h1]
      simp [normalize_path, hlsym, hsc2]

theorem coherent_fsCoh : Coherent fsCoh := by
  constructor
  · intro x y h
    simp only [fsCoh] at h
    split_ifs at h <;> (injection h with h'; subst h'; decide)
  · intro x y h
    simp only [fsCoh] at h
    split_ifs at h <;> (injection h with h'; subst h'; decide)
  · intro x y h
    simp only [fsCoh] at h
    split_ifs at h <;> (injection h with h'; subst h'; decide)
  · intro p h
    have hp : p = "/a/lnk" := eq_of_beq h
    subst hp
    exact ⟨"lnk", by decide, by decide⟩
  · intro p l h1 h2
    have hp : p = "/a/lnk" := eq_of_beq h1
    subst hp
    have hval : symlink_canonicalize fsCoh "/a/lnk" = some "/a/lnk" := by decide
    rw [hval] at h2
    injection h2 with h2
    subst h2
    decide

/-- C9 witness: a coherent filesystem with a symlink, where idempotence is
exercised on the symlink itself. -/
theorem normalize_path_idempotent_witness :
    Coherent fsCoh ∧
    normalize_path fsCoh (normalize_path fsCoh "/a/lnk") =
      normalize_path fsCoh "/a/lnk" :=
  ⟨coherent_fsCoh, normalize_path_idempotent fsCoh coherent_fsCoh "/a/lnk"⟩

end SafeRm
